import Mathlib

/-!
Verification development for the reply-tree expansion core of
`src/objects/VoteableContent.js` (the `VoteableContent` mixin).

The JavaScript entities (Submissions and Comments) are modelled as nodes in an
explicit heap (`Heap := List Node`), with object references modelled as heap
indices (`Ref := Nat`).  Each node carries the constructor name used by the
source's `this.constructor._name` check, the entity's `name`, and two listing
fields `comments` and `replies`, mirroring the two possible values of the
source's dynamically computed `repliesKey`.

A `Listing` holds the currently materialized child references (`items`) plus
the backing service's remaining supply for that listing (`more`), used by the
spec-modelled `fetchMore` collaborator.  Fetched items arrive unexpanded: a
`Tmpl` describes a not-yet-materialized entity (constructor name, name, and the
backing supply of each of its two listings).

JavaScript numbers appearing in the algorithm (`limit`, `depth`, the fetch
amount `limit - length`) are modelled as `Int`; the recursion of
`_mutateAndExpandReplies` is driven by `depth.toNat` as fuel, which is faithful
because the source's guard `depth <= 0` holds exactly when `depth.toNat = 0`
and `(depth - 1).toNat = depth.toNat - 1` for positive `depth`.

Crucially, the async semantics of the source is modelled at two observation
points:

* `mutateResolved` / `expandRepliesResolved`: the heap state and settled value
  at the moment the promise returned by `_mutateAndExpandReplies` (resp.
  `expandReplies`) settles.  In the source, line 157
  `replies.slice(0, limit).map(reply => reply._mutateAndExpandReplies(...))`
  produces an array of promises that is discarded — it is neither awaited nor
  passed to `Promise.all` — so the enclosing promise settles right after the
  node's own `fetchMore`, with the recursive child expansions still pending
  and their failures never observed.  The model therefore returns the list of
  detached child tasks instead of running them.

* `expandNode` / `expandRepliesAll`: the eventual heap state after every
  detached recursive task has run to completion, together with the list of
  fetch failures encountered anywhere in the fan-out and the trace of
  `fetchMore` calls (owner name and requested amount).
-/

namespace Snoowrap

abbrev Ref := Nat

/-- A not-yet-materialized entity held by the backing service: constructor
name, entity name, and the backing supply for its `comments` and `replies`
listings.  Items delivered by the service arrive with empty materialized
listings. -/
inductive Tmpl where
  | mk (kindName name : String) (cMore rMore : List Tmpl)
deriving Repr

/-- A reply listing: the materialized child references plus the backing
service's remaining supply for this listing. -/
structure Listing where
  items : List Ref
  more : List Tmpl
deriving Repr

/-- A Submission or Comment object on the heap.  `kindName` models
`this.constructor._name`; both candidate children fields are present, as in
the source where `repliesKey` selects between them. -/
structure Node where
  kindName : String
  name : String
  comments : Listing
  replies : Listing
deriving Repr

abbrev Heap := List Node

def dfltNode : Node := { kindName := "", name := "", comments := ⟨[], []⟩, replies := ⟨[], []⟩ }

/-- All heap references stored in a node's two listings. -/
def nodeRefs (n : Node) : List Ref := n.comments.items ++ n.replies.items

/-- Line 154: `this.constructor._name === 'Submission' ? 'comments' : 'replies'`. -/
def repliesKey (ctorName : String) : String :=
  if ctorName == "Submission" then "comments" else "replies"

/-- Dynamic field read `this[repliesKey]` for the two possible keys. -/
def getFieldByKey (n : Node) (key : String) : Listing :=
  if key == "comments" then n.comments else n.replies

/-- Dynamic field write `this[repliesKey] = replies` for the two possible keys. -/
def setFieldByKey (n : Node) (key : String) (l : Listing) : Node :=
  if key == "comments" then { n with comments := l } else { n with replies := l }

/-- JavaScript `arr.slice(0, limit)` for an integer `limit` (a negative end
index counts from the end of the array). -/
def sliceTo (limit : Int) (l : List α) : List α :=
  if limit < 0 then l.take (l.length - (-limit).toNat) else l.take limit.toNat

/-- Modelled from the spec: materialization of one backing-service item of
the Fetch-more collaborator (§6) as a fresh heap node with empty materialized
listings. -/
def allocOne (t : Tmpl) (h : Heap) : Ref × Heap :=
  match t with
  | .mk k n cM rM =>
    (h.length, h ++ [{ kindName := k, name := n, comments := ⟨[], cM⟩, replies := ⟨[], rM⟩ }])

/-- Modelled from the spec: materialization of a list of backing-service
items of the Fetch-more collaborator (§6), in order. -/
def allocList : List Tmpl → Heap → List Ref × Heap
  | [], h => ([], h)
  | t :: ts, h =>
    let r1 := allocOne t h
    let res := allocList ts r1.2
    (r1.1 :: res.1, res.2)

/-- Modelled from the spec: the `Listing.fetchMore` collaborator, which is not
part of this repository's sources (§6 Fetch-more): given the current partial
listing and a requested additional count, it returns a new listing containing
all previously-held items in the same order plus up to `amount` more from the
backing service, and it tolerates `amount ≤ 0` as a no-op returning an
equivalent listing. -/
def fetchMore (l : Listing) (amount : Int) (h : Heap) : Listing × Heap :=
  if amount ≤ 0 then (l, h)
  else
    let res := allocList (l.more.take amount.toNat) h
    (⟨l.items ++ res.1, l.more.drop amount.toNat⟩, res.2)

/-- The environment decides which nodes' `fetchMore` calls fail (a transport
or service failure is attributed to the owning node's name). -/
structure Env where
  failNames : List String

/-- The node `this` refers to. -/
def stepNode (h : Heap) (r : Ref) : Node := h.getD r dfltNode

/-- Line 154: the children field selected for this node. -/
def stepKey (h : Heap) (r : Ref) : String := repliesKey (stepNode h r).kindName

/-- The listing `this[repliesKey]` currently held by the selected field. -/
def stepListing (h : Heap) (r : Ref) : Listing := getFieldByKey (stepNode h r) (stepKey h r)

/-- Line 155: the unclamped fetch shortfall `limit - this[repliesKey].length`. -/
def stepAmount (limit : Int) (h : Heap) (r : Ref) : Int :=
  limit - ((stepListing h r).items.length : Int)

/-- The `fetchMore` call of line 155 on this node's listing. -/
def stepFetch (limit : Int) (h : Heap) (r : Ref) : Listing × Heap :=
  fetchMore (stepListing h r) (stepAmount limit h r) h

/-- One non-terminal pass of `_mutateAndExpandReplies` (lines 154-157): select
the children field by constructor name, call `fetchMore` with the unclamped
shortfall `limit - length`, store the returned listing back into the field,
and compute the recursion target set `replies.slice(0, limit)`.  Returns the
new heap, the recursion targets, and the fetch event (owner name, requested
amount); or the failing owner's name if the fetch fails. -/
def expandStep (env : Env) (limit : Int) (r : Ref) (h : Heap) :
    Except String (Heap × List Ref × (String × Int)) :=
  if (stepNode h r).name ∈ env.failNames then .error (stepNode h r).name
  else
    .ok ((stepFetch limit h r).2.set r
          (setFieldByKey (stepNode h r) (stepKey h r) (stepFetch limit h r).1),
        sliceTo limit (stepFetch limit h r).1.items,
        ((stepNode h r).name, stepAmount limit h r))

/-- Sequentially run a per-node action over a list of sibling references,
threading the heap and concatenating the collected failures and fetch
events. -/
def stepFold (g : Ref → Heap → Heap × List String × List (String × Int)) :
    List Ref → Heap × List String × List (String × Int) →
    Heap × List String × List (String × Int)
  | [], acc => acc
  | t :: ts, acc =>
    let res := g t acc.1
    stepFold g ts (res.1, acc.2.1 ++ res.2.1, acc.2.2 ++ res.2.2)

/-- Eventual semantics of `_mutateAndExpandReplies` at a node: the heap state
after the node's own fetch and after every detached recursive child task has
run to completion, together with all fetch failures encountered in the
fan-out and the trace of `fetchMore` calls.  The `Nat` fuel is `depth.toNat`;
fuel `0` is the source's `depth <= 0` terminal case, which returns the node
unchanged. -/
def expandNode (env : Env) (limit : Int) : Nat → Ref → Heap →
    Heap × List String × List (String × Int)
  | 0, _, h => (h, [], [])
  | d + 1, r, h =>
    match expandStep env limit r h with
    | .error n => (h, [n], [])
    | .ok (h2, ts, ev) => stepFold (fun q hh => expandNode env limit d q hh) ts (h2, [], [ev])

/-- State of the promise returned by `_mutateAndExpandReplies` at the moment
it settles: on `depth <= 0` it resolves immediately with the node; otherwise
it awaits only the node's own `fetchMore`, stores the listing, fires the
recursive calls on `replies.slice(0, limit)` without awaiting them (source
line 157 discards the array of promises), and resolves with the node.  The
settled value carries the still-pending detached child tasks, each of which
will run with budget `(limit, depth - 1)`. -/
def mutateResolved (env : Env) (limit depth : Int) (r : Ref) (h : Heap) :
    Except String (Ref × List Ref) × Heap :=
  if depth ≤ 0 then (.ok (r, []), h)
  else
    match expandStep env limit r h with
    | .error n => (.error n, h)
    | .ok (h2, ts, _) => (.ok (r, ts), h2)

/-- Sequentially clone a list of sibling references, threading the heap and
collecting the clones' references in order. -/
def cloneFold (g : Ref → Heap → Ref × Heap) : List Ref → List Ref × Heap → List Ref × Heap
  | [], acc => acc
  | q :: qs, acc =>
    let res := g q acc.2
    cloneFold g qs (acc.1 ++ [res.1], res.2)

/-- Modelled from the spec: the Deep-clone collaborator (§4.2, §6), used by
`this._clone({deep: true})` at line 191, is not part of this repository's
sources; it returns a structurally independent copy of the entity subtree
rooted at `r`, sharing no reference with the source subtree.  Children are
cloned before their parent, so every clone-region node refers only to other
clone-region nodes.  The fuel is taken as `r + 1` at the call sites, which
suffices on well-formed heaps, where children references are strictly below
the parent's reference. -/
def cloneNode : Nat → Ref → Heap → Ref × Heap
  | 0, _, h => (h.length, h ++ [dfltNode])
  | f + 1, r, h =>
    let node := h.getD r dfltNode
    let c := cloneFold (fun q hh => cloneNode f q hh) node.comments.items ([], h)
    let rp := cloneFold (fun q hh => cloneNode f q hh) node.replies.items ([], c.2)
    (rp.2.length,
      rp.2 ++ [⟨node.kindName, node.name, ⟨c.1, node.comments.more⟩, ⟨rp.1, node.replies.more⟩⟩])

/-- Result of an `expandReplies` call observed after all detached recursive
tasks have completed. -/
structure ExpandOut where
  heap : Heap
  root : Ref
  errs : List String
  fetches : List (String × Int)
deriving Repr

/-- Eventual semantics of `expandReplies` (lines 189-192): refresh the root
(the Fetch-root collaborator is modelled from the spec as an idempotent
refresh that leaves the entity's current fields unchanged), deep-clone it,
and run `_mutateAndExpandReplies` on the clone, including all detached
recursive tasks, to completion. -/
def expandRepliesAll (env : Env) (limit depth : Int) (r : Ref) (h : Heap) : ExpandOut :=
  let c := cloneNode (r + 1) r h
  let res := expandNode env limit depth.toNat c.1 c.2
  { heap := res.1, root := c.1, errs := res.2.1, fetches := res.2.2 }

/-- State of `expandReplies` observed at the moment its promise settles: the settled
value (the clone's reference and the detached, still-pending child tasks) or
the failing fetch owner, together with the heap state at that moment. -/
def expandRepliesResolved (env : Env) (limit depth : Int) (r : Ref) (h : Heap) :
    Except String (Ref × List Ref) × Heap :=
  let c := cloneNode (r + 1) r h
  mutateResolved env limit depth c.1 c.2

/-- The shape of the materialized tree at a reference: constructor name,
entity name, and the shapes of the materialized children of both listing
fields. -/
inductive Shape where
  | mk (kindName name : String) (cs rs : List Shape)
deriving Repr

def readShape : Nat → Heap → Ref → Shape
  | 0, _, _ => .mk "" "" [] []
  | f + 1, h, r =>
    let n := h.getD r dfltNode
    .mk n.kindName n.name
      (n.comments.items.map (fun q => readShape f h q))
      (n.replies.items.map (fun q => readShape f h q))

/-- Upper bound for the number of `fetchMore` calls an expansion with the
given budget can perform: one per visited node, with at most `limit` children
visited per node and `depth` levels. -/
def fetchCount (limit : Nat) : Nat → Nat
  | 0 => 0
  | d + 1 => 1 + limit * fetchCount limit d

/-- Executable well-formedness of a heap: every node refers only to nodes at
strictly smaller indices (so the reference order is a topological order of
the forest and a subtree at `r` is fully readable with fuel `r + 1`). -/
def nodeWf (i : Nat) (n : Node) : Bool := (nodeRefs n).all (fun q => decide (q < i))

def wfHeap (h : Heap) : Bool :=
  (List.range h.length).all (fun i => nodeWf i (h.getD i dfltNode))

/-! The `distinguish` family (lines 89-105). -/

/-- The `options.status` argument of `distinguish`: a boolean or a string. -/
inductive DStatus where
  | bool (b : Bool)
  | str (s : String)
deriving Repr, DecidableEq

/-- The form sent to the `api/distinguish` endpoint (line 90-95). -/
structure DForm where
  api_type : String
  how : String
  sticky : Bool
  id : String
deriving Repr, DecidableEq

/-- A POST request issued through `this._post`. -/
structure Req where
  url : String
  form : DForm
deriving Repr, DecidableEq

/-- Line 92: `status === true ? 'yes' : status === false ? 'no' : status`. -/
def distinguishHow : DStatus → String
  | .bool true => "yes"
  | .bool false => "no"
  | .str s => s

/-- Lines 89-97: `distinguish({status, sticky})` issues one POST to `api/distinguish` with
the mapped `how`, the `sticky` flag and this entity's name, and resolves with
the entity itself (`return this`). -/
def distinguish (self : Node) (status : DStatus) (sticky : Bool) : List Req × Node :=
  ([{ url := "api/distinguish",
      form := { api_type := "json", how := distinguishHow status, sticky := sticky,
                id := self.name } }], self)

/-- Lines 103-105: `undistinguish()` is `return this.distinguish({status: false, sticky: false})`. -/
def undistinguish (self : Node) : List Req × Node :=
  distinguish self (DStatus.bool false) false

/-! ### Heap predicates used by the theorems -/

/-- Positions below `n` are untouched. -/
def Frame (n : Nat) (h h' : Heap) : Prop := ∀ i, i < n → h'[i]? = h[i]?

/-- Every node present in `h` is still present in `h'` with the same
constructor name and entity name, and with each listing's materialized items
extended only by appending (so every already-fetched child survives, in the
same relative sibling order). -/
def Grows (h h' : Heap) : Prop :=
  ∀ (q : Ref) (n1 : Node), h[q]? = some n1 → ∃ n2 : Node, h'[q]? = some n2 ∧
    n2.kindName = n1.kindName ∧ n2.name = n1.name ∧
    n1.comments.items <+: n2.comments.items ∧ n1.replies.items <+: n2.replies.items

/-- Every node at a position `≥ n` refers only to positions `≥ n`. -/
def ClosedAbove (n : Nat) (h : Heap) : Prop :=
  ∀ (i : Nat) (nd : Node), h[i]? = some nd → n ≤ i → ∀ q ∈ nodeRefs nd, n ≤ q

/-- Every node at a position `≥ n` refers only to positions in `[n, i)`. -/
def RegionClosed (n : Nat) (h : Heap) : Prop :=
  ∀ (i : Nat) (nd : Node), h[i]? = some nd → n ≤ i → ∀ q ∈ nodeRefs nd, n ≤ q ∧ q < i

/-- Propositional well-formedness: every node refers only to nodes at
strictly smaller positions. -/
def WfHeapP (h : Heap) : Prop :=
  ∀ (i : Nat) (nd : Node), h[i]? = some nd → ∀ q ∈ nodeRefs nd, q < i

/-- Combined invariant carried through the expansion: the original region is
at most `n` long and the working region refers only to itself. -/
def Inv (n : Nat) (h : Heap) : Prop := n ≤ h.length ∧ ClosedAbove n h

/-! ### Concrete fixtures used to exercise the semantics -/

/-- An unexpanded backing-service comment named `a1`. -/
def tmplA1 : Tmpl := .mk "Comment" "a1" [] []

/-- An unexpanded backing-service comment named `b1`. -/
def tmplB1 : Tmpl := .mk "Comment" "b1" [] []

/-- A Submission `r` (reference 1) with one loaded comment `a` (reference 0)
whose reply listing can supply one further item `a1`. -/
def heapRA : Heap :=
  [⟨"Comment", "a", ⟨[], []⟩, ⟨[], [tmplA1]⟩⟩,
   ⟨"Submission", "r", ⟨[0], []⟩, ⟨[], []⟩⟩]

/-- A Comment `p` (reference 2) with two loaded replies `a` (reference 0) and
`b` (reference 1), each of which can supply one further reply. -/
def heapC6 : Heap :=
  [⟨"Comment", "a", ⟨[], []⟩, ⟨[], [tmplA1]⟩⟩,
   ⟨"Comment", "b", ⟨[], []⟩, ⟨[], [tmplB1]⟩⟩,
   ⟨"Comment", "p", ⟨[], []⟩, ⟨[0, 1], []⟩⟩]

/-- An environment in which every fetch succeeds. -/
def envOk : Env := ⟨[]⟩

/-- An environment in which the fetch on `a`'s listing fails. -/
def envFailA : Env := ⟨["a"]⟩

/-! ### Basic helper lemmas -/

theorem prefix_getElem? {h h' : Heap} (hp : h <+: h') {i : Nat} (hi : i < h.length) :
    h'[i]? = h[i]? := by
  obtain ⟨t, rfl⟩ := hp
  exact List.getElem?_append_left hi

theorem frame_of_heapExt {n : Nat} {h h' : Heap} (hp : h <+: h') (hn : n ≤ h.length) :
    Frame n h h' :=
  fun i hi => prefix_getElem? hp (lt_of_lt_of_le hi hn)

theorem frame_trans {n : Nat} {h1 h2 h3 : Heap} (a : Frame n h1 h2) (b : Frame n h2 h3) :
    Frame n h1 h3 :=
  fun i hi => (b i hi).trans (a i hi)

theorem grows_refl {h : Heap} : Grows h h :=
  fun q n1 hq => ⟨n1, hq, rfl, rfl, List.prefix_rfl, List.prefix_rfl⟩

theorem grows_trans {h1 h2 h3 : Heap} (a : Grows h1 h2) (b : Grows h2 h3) :
    Grows h1 h3 := by
  intro q n1 hq
  obtain ⟨m, hm, k1, k2, k3, k4⟩ := a q n1 hq
  obtain ⟨m2, hm2, j1, j2, j3, j4⟩ := b q m hm
  exact ⟨m2, hm2, j1.trans k1, j2.trans k2, k3.trans j3, k4.trans j4⟩

theorem grows_of_heapExt {h h' : Heap} (hp : h <+: h') : Grows h h' := by
  intro q n1 hq
  have hlt : q < h.length := by
    by_contra hge
    rw [List.getElem?_eq_none (Nat.le_of_not_lt hge)] at hq
    exact Option.noConfusion hq
  exact ⟨n1, (prefix_getElem? hp hlt).trans hq, rfl, rfl, List.prefix_rfl, List.prefix_rfl⟩

theorem getD_of_getElem? {h : Heap} {i : Nat} {nd : Node} (hi : h[i]? = some nd) :
    h.getD i dfltNode = nd := by
  simp [List.getD_eq_getElem?_getD, hi]

theorem getElem?_lt_length {h : Heap} {i : Nat} {nd : Node} (hi : h[i]? = some nd) :
    i < h.length := by
  by_contra hge
  rw [List.getElem?_eq_none (Nat.le_of_not_lt hge)] at hi
  exact Option.noConfusion hi

/-- The two possible values of `repliesKey`. -/
theorem repliesKey_cases (s : String) : repliesKey s = "comments" ∨ repliesKey s = "replies" := by
  unfold repliesKey
  by_cases hs : s == "Submission" <;> simp [hs]

theorem setFieldByKey_kindName (n : Node) (key : String) (l : Listing) :
    (setFieldByKey n key l).kindName = n.kindName := by
  unfold setFieldByKey
  by_cases hk : key == "comments" <;> simp [hk]

theorem setFieldByKey_name (n : Node) (key : String) (l : Listing) :
    (setFieldByKey n key l).name = n.name := by
  unfold setFieldByKey
  by_cases hk : key == "comments" <;> simp [hk]

theorem sliceTo_subset (limit : Int) (l : List α) : ∀ q ∈ sliceTo limit l, q ∈ l := by
  intro q hq
  unfold sliceTo at hq
  by_cases hl : limit < 0 <;> simp [hl] at hq <;> exact List.take_subset _ _ hq

theorem sliceTo_length_le {limit : Int} (h0 : 0 ≤ limit) (l : List α) :
    (sliceTo limit l).length ≤ limit.toNat := by
  unfold sliceTo
  rw [if_neg (not_lt.mpr h0)]
  exact le_trans (List.length_take_le _ _) (le_refl _)

/-! ### Allocation lemmas -/

theorem allocOne_snd (t : Tmpl) (h : Heap) :
    ∃ nd, (allocOne t h).2 = h ++ [nd] ∧ nodeRefs nd = [] ∧ (allocOne t h).1 = h.length := by
  cases t with
  | mk k n cM rM => exact ⟨_, rfl, rfl, rfl⟩

theorem allocList_cons (t : Tmpl) (ts : List Tmpl) (h : Heap) :
    allocList (t :: ts) h =
      ((allocOne t h).1 :: (allocList ts (allocOne t h).2).1,
        (allocList ts (allocOne t h).2).2) := rfl

theorem allocList_spec (ts : List Tmpl) : ∀ h : Heap,
    h <+: (allocList ts h).2 ∧
    (∀ q ∈ (allocList ts h).1, h.length ≤ q ∧ q < (allocList ts h).2.length) ∧
    (∀ (i : Nat) (nd : Node), (allocList ts h).2[i]? = some nd → h.length ≤ i →
      nodeRefs nd = []) := by
  induction ts with
  | nil =>
    intro h
    refine ⟨List.prefix_rfl, by simp [allocList], ?_⟩
    intro i nd hi hge
    exact absurd (getElem?_lt_length hi) (not_lt.mpr hge)
  | cons t ts ih =>
    intro h
    obtain ⟨nd0, hsnd, hrefs0, hfst⟩ := allocOne_snd t h
    have hlen1 : (allocOne t h).2.length = h.length + 1 := by simp [hsnd]
    obtain ⟨ihp, ihq, ihn⟩ := ih (allocOne t h).2
    have hpre : h <+: (allocList ts (allocOne t h).2).2 := by
      refine List.IsPrefix.trans ?_ ihp
      rw [hsnd]; exact ⟨[nd0], rfl⟩
    rw [allocList_cons]
    refine ⟨hpre, ?_, ?_⟩
    · intro q hq
      rcases List.mem_cons.mp hq with hq | hq
      · subst hq
        rw [hfst]
        refine ⟨le_refl _, ?_⟩
        calc h.length < (allocOne t h).2.length := by omega
          _ ≤ (allocList ts (allocOne t h).2).2.length := ihp.length_le
      · obtain ⟨hq1, hq2⟩ := ihq q hq
        exact ⟨by omega, hq2⟩
    · intro i nd hi hge
      by_cases hcase : i < (allocOne t h).2.length
      · have hieq : i = h.length := by omega
        have heq : (allocList ts (allocOne t h).2).2[i]? = (allocOne t h).2[i]? :=
          prefix_getElem? ihp hcase
        rw [heq, hsnd, hieq, List.getElem?_concat_length] at hi
        cases hi
        exact hrefs0
      · exact ihn i nd hi (by omega)

/-! ### fetchMore lemmas -/

theorem fetchMore_heapExt (l : Listing) (a : Int) (h : Heap) : h <+: (fetchMore l a h).2 := by
  unfold fetchMore
  by_cases ha : a ≤ 0
  · simp [ha]
  · simp only [ha, if_false]
    exact (allocList_spec _ h).1

theorem fetchMore_keeps_items (l : Listing) (a : Int) (h : Heap) :
    l.items <+: (fetchMore l a h).1.items := by
  unfold fetchMore
  by_cases ha : a ≤ 0
  · simp [ha]
  · simp only [ha, if_false]
    exact ⟨_, rfl⟩

theorem fetchMore_items_mem (l : Listing) (a : Int) (h : Heap) :
    ∀ q ∈ (fetchMore l a h).1.items,
      q ∈ l.items ∨ (h.length ≤ q ∧ q < (fetchMore l a h).2.length) := by
  unfold fetchMore
  by_cases ha : a ≤ 0
  · simp only [ha, if_true]
    exact fun q hq => Or.inl hq
  · simp only [ha, if_false]
    intro q hq
    rcases List.mem_append.mp hq with hq | hq
    · exact Or.inl hq
    · exact Or.inr ((allocList_spec _ h).2.1 q hq)

theorem fetchMore_new_nodes (l : Listing) (a : Int) (h : Heap) :
    ∀ i nd, (fetchMore l a h).2[i]? = some nd → h.length ≤ i → nodeRefs nd = [] := by
  unfold fetchMore
  by_cases ha : a ≤ 0
  · simp only [ha, if_true]
    intro i nd hi hge
    exact absurd (getElem?_lt_length hi) (not_lt.mpr hge)
  · simp only [ha, if_false]
    exact (allocList_spec _ h).2.2

/-- The collaborator contract assumed by the source at line 155: a
non-positive requested amount is a no-op returning the listing as-is. -/
theorem fetchMore_nonpos {a : Int} (ha : a ≤ 0) (l : Listing) (h : Heap) :
    fetchMore l a h = (l, h) := by
  unfold fetchMore
  simp [ha]

/-! ### Field selection lemmas -/

theorem getFieldByKey_comments (n : Node) : getFieldByKey n "comments" = n.comments := by
  simp [getFieldByKey]

theorem getFieldByKey_replies (n : Node) : getFieldByKey n "replies" = n.replies := by
  simp [getFieldByKey]

theorem setFieldByKey_comments (n : Node) (l : Listing) :
    setFieldByKey n "comments" l = { n with comments := l } := by
  simp [setFieldByKey]

theorem setFieldByKey_replies (n : Node) (l : Listing) :
    setFieldByKey n "replies" l = { n with replies := l } := by
  simp [setFieldByKey]

theorem getFieldByKey_items_subset (n : Node) {key : String}
    (hk : key = "comments" ∨ key = "replies") :
    ∀ q ∈ (getFieldByKey n key).items, q ∈ nodeRefs n := by
  rcases hk with hk | hk <;> subst hk <;> intro q hq
  · rw [getFieldByKey_comments] at hq
    exact List.mem_append.mpr (Or.inl hq)
  · rw [getFieldByKey_replies] at hq
    exact List.mem_append.mpr (Or.inr hq)

theorem nodeRefs_setFieldByKey (n : Node) {key : String}
    (hk : key = "comments" ∨ key = "replies") (l : Listing) :
    ∀ q ∈ nodeRefs (setFieldByKey n key l), q ∈ l.items ∨ q ∈ nodeRefs n := by
  rcases hk with hk | hk <;> subst hk <;> intro q hq
  · rw [setFieldByKey_comments] at hq
    rcases List.mem_append.mp hq with hq | hq
    · exact Or.inl hq
    · exact Or.inr (List.mem_append.mpr (Or.inr hq))
  · rw [setFieldByKey_replies] at hq
    rcases List.mem_append.mp hq with hq | hq
    · exact Or.inr (List.mem_append.mpr (Or.inl hq))
    · exact Or.inl hq

theorem stepKey_cases (h : Heap) (r : Ref) :
    stepKey h r = "comments" ∨ stepKey h r = "replies" :=
  repliesKey_cases _

/-! ### expandStep lemmas -/

theorem expandStep_ok {env : Env} {limit : Int} {r : Ref} {h h2 : Heap}
    {ts : List Ref} {ev : String × Int}
    (hok : expandStep env limit r h = .ok (h2, ts, ev)) :
    h2 = (stepFetch limit h r).2.set r
        (setFieldByKey (stepNode h r) (stepKey h r) (stepFetch limit h r).1) ∧
    ts = sliceTo limit (stepFetch limit h r).1.items ∧
    ev = ((stepNode h r).name, stepAmount limit h r) ∧
    (stepNode h r).name ∉ env.failNames := by
  unfold expandStep at hok
  by_cases hf : (stepNode h r).name ∈ env.failNames
  · simp [hf] at hok
  · simp only [hf, if_false, Except.ok.injEq, Prod.mk.injEq] at hok
    exact ⟨hok.1.symm, hok.2.1.symm, hok.2.2.symm, hf⟩

theorem expandStep_error {env : Env} {limit : Int} {r : Ref} {h : Heap} {s : String}
    (he : expandStep env limit r h = .error s) :
    s = (stepNode h r).name ∧ (stepNode h r).name ∈ env.failNames := by
  unfold expandStep at he
  by_cases hf : (stepNode h r).name ∈ env.failNames
  · simp only [hf, if_true, Except.error.injEq] at he
    exact ⟨he.symm, hf⟩
  · simp [hf] at he

theorem stepFetch_def (limit : Int) (h : Heap) (r : Ref) :
    stepFetch limit h r = fetchMore (stepListing h r) (stepAmount limit h r) h := rfl

theorem stepListing_def (h : Heap) (r : Ref) :
    stepListing h r = getFieldByKey (stepNode h r) (stepKey h r) := rfl

theorem stepFetch_keeps_items (limit : Int) (h : Heap) (r : Ref) :
    (stepListing h r).items <+: (stepFetch limit h r).1.items :=
  fetchMore_keeps_items _ _ _

theorem stepFetch_heapExt (limit : Int) (h : Heap) (r : Ref) :
    h <+: (stepFetch limit h r).2 :=
  fetchMore_heapExt _ _ _

theorem stepNode_some {h : Heap} {r : Ref} (hrl : r < h.length) :
    h[r]? = some (stepNode h r) := by
  simp [stepNode, List.getD_eq_getElem?_getD, List.getElem?_eq_getElem hrl]

theorem stepNode_dflt {h : Heap} {r : Ref} (hrl : h.length ≤ r) :
    stepNode h r = dfltNode := by
  simp [stepNode, List.getD_eq_getElem?_getD, List.getElem?_eq_none hrl]

theorem expandStep_pres {env : Env} {limit : Int} {n : Nat} {r : Ref} {h h2 : Heap}
    {ts : List Ref} {ev : String × Int}
    (hok : expandStep env limit r h = .ok (h2, ts, ev))
    (hinv : Inv n h) (hr : n ≤ r) :
    Frame n h h2 ∧ Grows h h2 ∧ Inv n h2 ∧ (∀ q ∈ ts, n ≤ q) := by
  obtain ⟨hn, hcl⟩ := hinv
  obtain ⟨hh2, hts, _, _⟩ := expandStep_ok hok
  have hpre : h <+: (stepFetch limit h r).2 := stepFetch_heapExt limit h r
  have hlen : h.length ≤ (stepFetch limit h r).2.length := hpre.length_le
  have hmem : ∀ q ∈ (stepFetch limit h r).1.items,
      q ∈ (stepListing h r).items ∨ (h.length ≤ q ∧ q < (stepFetch limit h r).2.length) :=
    fetchMore_items_mem _ _ _
  have hnodeRefs : ∀ q ∈ nodeRefs (stepNode h r), n ≤ q := by
    intro q hq
    by_cases hrl : r < h.length
    · exact hcl r _ (stepNode_some hrl) hr q hq
    · rw [stepNode_dflt (Nat.le_of_not_lt hrl)] at hq
      simp [nodeRefs, dfltNode] at hq
  have hlistRefs : ∀ q ∈ (stepListing h r).items, n ≤ q := fun q hq =>
    hnodeRefs q (getFieldByKey_items_subset _ (stepKey_cases h r) q hq)
  have hitemsGe : ∀ q ∈ (stepFetch limit h r).1.items, n ≤ q := by
    intro q hq
    rcases hmem q hq with hq2 | ⟨hq2, _⟩
    · exact hlistRefs q hq2
    · omega
  refine ⟨?_, ?_, ⟨?_, ?_⟩, ?_⟩
  · -- Frame
    intro i hi
    rw [hh2, List.getElem?_set_ne (by omega)]
    exact prefix_getElem? hpre (by omega)
  · -- Grows
    intro q n1 hq
    have hql : q < h.length := getElem?_lt_length hq
    by_cases hqr : q = r
    · have hnode : stepNode h r = n1 := by rw [← hqr]; exact getD_of_getElem? hq
      have hql2 : r < h.length := hqr ▸ hql
      have hrlen : r < (stepFetch limit h r).2.length := lt_of_lt_of_le hql2 hlen
      have hq2 : h2[q]? =
          some (setFieldByKey n1 (stepKey h r) (stepFetch limit h r).1) := by
        rw [hh2, hqr, ← hnode]
        exact List.getElem?_set_self hrlen
      refine ⟨_, hq2, setFieldByKey_kindName _ _ _, setFieldByKey_name _ _ _, ?_, ?_⟩
      · rcases stepKey_cases h r with hk | hk
        · simp only [hk, setFieldByKey_comments]
          have hp := stepFetch_keeps_items limit h r
          rw [stepListing_def, hk, getFieldByKey_comments, hnode] at hp
          exact hp
        · simp only [hk, setFieldByKey_replies]
          exact List.prefix_rfl
      · rcases stepKey_cases h r with hk | hk
        · simp only [hk, setFieldByKey_comments]
          exact List.prefix_rfl
        · simp only [hk, setFieldByKey_replies]
          have hp := stepFetch_keeps_items limit h r
          rw [stepListing_def, hk, getFieldByKey_replies, hnode] at hp
          exact hp
    · rw [hh2, List.getElem?_set_ne (fun he => hqr he.symm), prefix_getElem? hpre hql]
      exact ⟨n1, hq, rfl, rfl, List.prefix_rfl, List.prefix_rfl⟩
  · -- n ≤ h2.length
    rw [hh2, List.length_set]
    omega
  · -- ClosedAbove n h2
    intro i nd hi hni q hq
    rw [hh2] at hi
    by_cases hir : i = r
    · rw [hir] at hi
      by_cases hil : r < (stepFetch limit h r).2.length
      · rw [List.getElem?_set_self hil] at hi
        cases hi
        rcases nodeRefs_setFieldByKey _ (stepKey_cases h r) _ q hq with hq2 | hq2
        · exact hitemsGe q hq2
        · exact hnodeRefs q hq2
      · rw [List.set_eq_of_length_le (Nat.le_of_not_lt hil)] at hi
        exact absurd (getElem?_lt_length hi) hil
    · rw [List.getElem?_set_ne (fun he => hir he.symm)] at hi
      by_cases hil : i < h.length
      · rw [prefix_getElem? hpre hil] at hi
        exact hcl i nd hi hni q hq
      · have hnil : nodeRefs nd = [] :=
          fetchMore_new_nodes _ _ _ i nd hi (Nat.le_of_not_lt hil)
        rw [hnil] at hq
        simp at hq
  · -- targets are in the working region
    intro q hq
    rw [hts] at hq
    exact hitemsGe q (sliceTo_subset _ _ q hq)

/-! ### Unfolding equations -/

theorem stepFold_nil (g : Ref → Heap → Heap × List String × List (String × Int))
    (acc : Heap × List String × List (String × Int)) : stepFold g [] acc = acc := rfl

theorem stepFold_cons (g : Ref → Heap → Heap × List String × List (String × Int))
    (t : Ref) (ts : List Ref) (acc : Heap × List String × List (String × Int)) :
    stepFold g (t :: ts) acc =
      stepFold g ts ((g t acc.1).1, acc.2.1 ++ (g t acc.1).2.1, acc.2.2 ++ (g t acc.1).2.2) := rfl

theorem expandNode_zero (env : Env) (limit : Int) (r : Ref) (h : Heap) :
    expandNode env limit 0 r h = (h, [], []) := rfl

theorem expandNode_succ (env : Env) (limit : Int) (d : Nat) (r : Ref) (h : Heap) :
    expandNode env limit (d + 1) r h =
      match expandStep env limit r h with
      | .error s => (h, [s], [])
      | .ok (h2, ts, ev) =>
        stepFold (fun q hh => expandNode env limit d q hh) ts (h2, [], [ev]) := rfl

theorem cloneFold_nil (g : Ref → Heap → Ref × Heap) (acc : List Ref × Heap) :
    cloneFold g [] acc = acc := rfl

theorem cloneFold_cons (g : Ref → Heap → Ref × Heap) (q : Ref) (qs : List Ref)
    (acc : List Ref × Heap) :
    cloneFold g (q :: qs) acc = cloneFold g qs (acc.1 ++ [(g q acc.2).1], (g q acc.2).2) := rfl

theorem cloneNode_zero (r : Ref) (h : Heap) : cloneNode 0 r h = (h.length, h ++ [dfltNode]) := rfl

theorem cloneNode_succ (f : Nat) (r : Ref) (h : Heap) :
    cloneNode (f + 1) r h =
      ((cloneFold (fun q hh => cloneNode f q hh)
          (stepNode h r).replies.items
          ([], (cloneFold (fun q hh => cloneNode f q hh) (stepNode h r).comments.items
            ([], h)).2)).2.length,
        (cloneFold (fun q hh => cloneNode f q hh)
          (stepNode h r).replies.items
          ([], (cloneFold (fun q hh => cloneNode f q hh) (stepNode h r).comments.items
            ([], h)).2)).2 ++
        [⟨(stepNode h r).kindName, (stepNode h r).name,
          ⟨(cloneFold (fun q hh => cloneNode f q hh) (stepNode h r).comments.items ([], h)).1,
            (stepNode h r).comments.more⟩,
          ⟨(cloneFold (fun q hh => cloneNode f q hh)
              (stepNode h r).replies.items
              ([], (cloneFold (fun q hh => cloneNode f q hh) (stepNode h r).comments.items
                ([], h)).2)).1,
            (stepNode h r).replies.more⟩⟩]) := rfl

theorem readShape_zero (h : Heap) (r : Ref) : readShape 0 h r = .mk "" "" [] [] := rfl

theorem readShape_succ (f : Nat) (h : Heap) (r : Ref) :
    readShape (f + 1) h r =
      .mk (stepNode h r).kindName (stepNode h r).name
        ((stepNode h r).comments.items.map (fun q => readShape f h q))
        ((stepNode h r).replies.items.map (fun q => readShape f h q)) := rfl

/-! ### Invariant preservation for the eventual semantics -/

theorem stepFold_pres {n : Nat} (g : Ref → Heap → Heap × List String × List (String × Int))
    (hg : ∀ q h, Inv n h → n ≤ q →
      Frame n h (g q h).1 ∧ Grows h (g q h).1 ∧ Inv n (g q h).1) :
    ∀ (l : List Ref) (acc : Heap × List String × List (String × Int)),
      Inv n acc.1 → (∀ q ∈ l, n ≤ q) →
      Frame n acc.1 (stepFold g l acc).1 ∧ Grows acc.1 (stepFold g l acc).1 ∧
      Inv n (stepFold g l acc).1 := by
  intro l
  induction l with
  | nil =>
    intro acc hinv _
    rw [stepFold_nil]
    exact ⟨fun i _ => rfl, grows_refl, hinv⟩
  | cons t ts ih =>
    intro acc hinv hl
    rw [stepFold_cons]
    obtain ⟨f1, g1, inv1⟩ := hg t acc.1 hinv (hl t (List.mem_cons_self t ts))
    obtain ⟨f2, g2, inv2⟩ :=
      ih ((g t acc.1).1, acc.2.1 ++ (g t acc.1).2.1, acc.2.2 ++ (g t acc.1).2.2)
        inv1 (fun q hq => hl q (List.mem_cons_of_mem t hq))
    exact ⟨frame_trans f1 f2, grows_trans g1 g2, inv2⟩

theorem expandNode_pres {env : Env} {limit : Int} {n : Nat} :
    ∀ (d : Nat) (r : Ref) (h : Heap), Inv n h → n ≤ r →
      Frame n h (expandNode env limit d r h).1 ∧ Grows h (expandNode env limit d r h).1 ∧
      Inv n (expandNode env limit d r h).1 := by
  intro d
  induction d with
  | zero =>
    intro r h hinv _
    rw [expandNode_zero]
    exact ⟨fun i _ => rfl, grows_refl, hinv⟩
  | succ d ih =>
    intro r h hinv hr
    rw [expandNode_succ]
    cases hstep : expandStep env limit r h with
    | error s =>
      exact ⟨fun i _ => rfl, grows_refl, hinv⟩
    | ok out =>
      obtain ⟨h2, ts, ev⟩ := out
      obtain ⟨hf, hg, hinv2, hts⟩ := expandStep_pres hstep hinv hr
      obtain ⟨f2, g2, inv2⟩ :=
        stepFold_pres (fun q hh => expandNode env limit d q hh)
          (fun q hh hhinv hq => ih q hh hhinv hq) ts (h2, [], [ev]) hinv2 hts
      exact ⟨frame_trans hf f2, grows_trans hg g2, inv2⟩

/-! ### Clone lemmas -/

theorem cloneFold_spec (g : Ref → Heap → Ref × Heap)
    (hg : ∀ q h, h <+: (g q h).2 ∧ h.length ≤ (g q h).1 ∧ (g q h).1 < (g q h).2.length ∧
      ∀ n, n ≤ h.length → RegionClosed n h → RegionClosed n (g q h).2) :
    ∀ (l : List Ref) (acc : List Ref × Heap),
      acc.2 <+: (cloneFold g l acc).2 ∧
      (∀ q ∈ (cloneFold g l acc).1,
        q ∈ acc.1 ∨ (acc.2.length ≤ q ∧ q < (cloneFold g l acc).2.length)) ∧
      (∀ n, n ≤ acc.2.length → RegionClosed n acc.2 → RegionClosed n (cloneFold g l acc).2) := by
  intro l
  induction l with
  | nil =>
    intro acc
    rw [cloneFold_nil]
    exact ⟨List.prefix_rfl, fun q hq => Or.inl hq, fun n _ hc => hc⟩
  | cons t ts ih =>
    intro acc
    rw [cloneFold_cons]
    obtain ⟨hp1, hge1, hlt1, hrc1⟩ := hg t acc.2
    obtain ⟨hp2, hmem2, hrc2⟩ := ih (acc.1 ++ [(g t acc.2).1], (g t acc.2).2)
    refine ⟨hp1.trans hp2, ?_, ?_⟩
    · intro q hq
      rcases hmem2 q hq with hq2 | ⟨hq2, hq3⟩
      · rcases List.mem_append.mp hq2 with hq3 | hq3
        · exact Or.inl hq3
        · rcases List.mem_singleton.mp hq3 with rfl
          exact Or.inr ⟨hge1, lt_of_lt_of_le hlt1 hp2.length_le⟩
      · exact Or.inr ⟨le_trans hp1.length_le hq2, hq3⟩
    · intro n hn hc
      exact hrc2 n (le_trans hn hp1.length_le) (hrc1 n hn hc)

theorem cloneNode_spec : ∀ (f : Nat) (r : Ref) (h : Heap),
    h <+: (cloneNode f r h).2 ∧
    h.length ≤ (cloneNode f r h).1 ∧
    (cloneNode f r h).1 < (cloneNode f r h).2.length ∧
    ∀ n, n ≤ h.length → RegionClosed n h → RegionClosed n (cloneNode f r h).2 := by
  intro f
  induction f with
  | zero =>
    intro r h
    rw [cloneNode_zero]
    refine ⟨List.prefix_append _ _, le_refl _, by simp, ?_⟩
    intro n hn hc i nd hi hni q hq
    by_cases hil : i < h.length
    · rw [List.getElem?_append_left hil] at hi
      exact hc i nd hi hni q hq
    · have hlen2 : i < h.length + 1 := by
        have := getElem?_lt_length hi
        simpa using this
      have hieq : i = h.length := by omega
      subst hieq
      rw [List.getElem?_concat_length] at hi
      cases hi
      simp [nodeRefs, dfltNode] at hq
  | succ f ih =>
    intro r h
    rw [cloneNode_succ]
    obtain ⟨cp, cmem, crc⟩ :=
      cloneFold_spec (fun q hh => cloneNode f q hh) (fun q hh => ih q hh)
        (stepNode h r).comments.items ([], h)
    obtain ⟨rp, rmem, rrc⟩ :=
      cloneFold_spec (fun q hh => cloneNode f q hh) (fun q hh => ih q hh)
        (stepNode h r).replies.items
        ([], (cloneFold (fun q hh => cloneNode f q hh) (stepNode h r).comments.items ([], h)).2)
    refine ⟨?_, ?_, ?_, ?_⟩
    · exact (cp.trans rp).trans (List.prefix_append _ _)
    · simpa using le_trans cp.length_le rp.length_le
    · simp
    · intro n hn hc i nd hi hni q hq
      have hcr : RegionClosed n
          (cloneFold (fun q hh => cloneNode f q hh) (stepNode h r).replies.items
            ([], (cloneFold (fun q hh => cloneNode f q hh) (stepNode h r).comments.items
              ([], h)).2)).2 :=
        rrc n (le_trans hn cp.length_le) (crc n hn hc)
      by_cases hil : i <
          (cloneFold (fun q hh => cloneNode f q hh) (stepNode h r).replies.items
            ([], (cloneFold (fun q hh => cloneNode f q hh) (stepNode h r).comments.items
              ([], h)).2)).2.length
      · rw [List.getElem?_append_left hil] at hi
        exact hcr i nd hi hni q hq
      · have hlen2 : i <
            (cloneFold (fun q hh => cloneNode f q hh) (stepNode h r).replies.items
              ([], (cloneFold (fun q hh => cloneNode f q hh) (stepNode h r).comments.items
                ([], h)).2)).2.length + 1 := by
          have := getElem?_lt_length hi
          simpa using this
        have hieq : i =
            (cloneFold (fun q hh => cloneNode f q hh) (stepNode h r).replies.items
              ([], (cloneFold (fun q hh => cloneNode f q hh) (stepNode h r).comments.items
                ([], h)).2)).2.length := by omega
        subst hieq
        rw [List.getElem?_concat_length] at hi
        cases hi
        rcases List.mem_append.mp hq with hq2 | hq2
        · rcases cmem q hq2 with hq3 | ⟨hq3, hq4⟩
          · simp at hq3
          · refine ⟨le_trans hn hq3, ?_⟩
            calc q < _ := hq4
              _ ≤ _ := rp.length_le
        · rcases rmem q hq2 with hq3 | ⟨hq3, hq4⟩
          · simp at hq3
          · exact ⟨le_trans (le_trans hn cp.length_le) hq3, hq4⟩

/-! ### Well-formedness and shape fidelity of the deep clone -/

theorem wfHeap_spec {h : Heap} (hw : wfHeap h = true) : WfHeapP h := by
  intro i nd hi q hq
  have hil : i < h.length := getElem?_lt_length hi
  unfold wfHeap at hw
  rw [List.all_eq_true] at hw
  have hthis := hw i (List.mem_range.mpr hil)
  unfold nodeWf at hthis
  rw [List.all_eq_true] at hthis
  rw [getD_of_getElem? hi] at hthis
  exact of_decide_eq_true (hthis q hq)

theorem regionClosed_length (h : Heap) : RegionClosed h.length h :=
  fun i _ hi hni _ _ => absurd (getElem?_lt_length hi) (not_lt.mpr hni)

theorem clone_wf {h : Heap} (hwf : WfHeapP h) (f : Nat) (r : Ref) :
    WfHeapP (cloneNode f r h).2 := by
  intro i nd hi q hq
  by_cases hil : i < h.length
  · rw [prefix_getElem? (cloneNode_spec f r h).1 hil] at hi
    exact hwf i nd hi q hq
  · have hrc := (cloneNode_spec f r h).2.2.2 h.length (le_refl _) (regionClosed_length h)
    exact (hrc i nd hi (Nat.le_of_not_lt hil) q hq).2

theorem stepNode_prefix_eq {h h' : Heap} (hp : h <+: h') {q : Ref} (hq : q < h.length) :
    stepNode h' q = stepNode h q := by
  unfold stepNode
  rw [List.getD_eq_getElem?_getD, List.getD_eq_getElem?_getD, prefix_getElem? hp hq]

theorem readShape_stable {h h' : Heap} (hwf : WfHeapP h) (hp : h <+: h') :
    ∀ (f : Nat) (q : Ref), q < h.length → readShape f h' q = readShape f h q := by
  intro f
  induction f with
  | zero => intro q _; rfl
  | succ f ih =>
    intro q hq
    rw [readShape_succ, readShape_succ, stepNode_prefix_eq hp hq]
    have hsome : h[q]? = some (stepNode h q) := stepNode_some hq
    have hc : ((stepNode h q).comments.items.map (fun a => readShape f h' a)) =
        ((stepNode h q).comments.items.map (fun a => readShape f h a)) := by
      apply List.map_congr_left
      intro a ha
      exact ih a (lt_trans (hwf q _ hsome a (List.mem_append.mpr (Or.inl ha))) hq)
    have hr : ((stepNode h q).replies.items.map (fun a => readShape f h' a)) =
        ((stepNode h q).replies.items.map (fun a => readShape f h a)) := by
      apply List.map_congr_left
      intro a ha
      exact ih a (lt_trans (hwf q _ hsome a (List.mem_append.mpr (Or.inr ha))) hq)
    rw [hc, hr]

theorem stepNode_concat (H : Heap) (x : Node) : stepNode (H ++ [x]) H.length = x := by
  simp [stepNode, List.getD_eq_getElem?_getD, List.getElem?_concat_length]

theorem cloneFold_shape {h0 : Heap} (hwf0 : WfHeapP h0) (f : Nat)
    (hf : ∀ (r : Ref) (h : Heap), WfHeapP h →
      readShape f (cloneNode f r h).2 (cloneNode f r h).1 = readShape f h r) :
    ∀ (l : List Ref) (acc : List Ref × Heap), (∀ q ∈ l, q < h0.length) →
      h0 <+: acc.2 → WfHeapP acc.2 →
      ∃ newRefs : List Ref,
        (cloneFold (fun q hh => cloneNode f q hh) l acc).1 = acc.1 ++ newRefs ∧
        (∀ q ∈ newRefs, q < (cloneFold (fun q hh => cloneNode f q hh) l acc).2.length) ∧
        WfHeapP (cloneFold (fun q hh => cloneNode f q hh) l acc).2 ∧
        acc.2 <+: (cloneFold (fun q hh => cloneNode f q hh) l acc).2 ∧
        List.map (fun q => readShape f (cloneFold (fun q hh => cloneNode f q hh) l acc).2 q)
            newRefs =
          List.map (fun q => readShape f h0 q) l := by
  intro l
  induction l with
  | nil =>
    intro acc _ _ hwf
    rw [cloneFold_nil]
    exact ⟨[], by simp, by simp, hwf, List.prefix_rfl, by simp⟩
  | cons t ts ih =>
    intro acc hl hp hwf
    rw [cloneFold_cons]
    obtain ⟨p1, ge1, lt1, _⟩ := cloneNode_spec f t acc.2
    have hwf1 : WfHeapP (cloneNode f t acc.2).2 := clone_wf hwf f t
    have hshape1 : readShape f (cloneNode f t acc.2).2 (cloneNode f t acc.2).1 =
        readShape f acc.2 t := hf t acc.2 hwf
    have hstab1 : readShape f acc.2 t = readShape f h0 t :=
      readShape_stable hwf0 hp f t (hl t (List.mem_cons_self t ts))
    obtain ⟨newRefs, e1, e2, e3, e4, e5⟩ :=
      ih (acc.1 ++ [(cloneNode f t acc.2).1], (cloneNode f t acc.2).2)
        (fun q hq => hl q (List.mem_cons_of_mem t hq)) (hp.trans p1) hwf1
    refine ⟨(cloneNode f t acc.2).1 :: newRefs, ?_, ?_, e3, p1.trans e4, ?_⟩
    · rw [e1, List.append_assoc]
      rfl
    · intro q hq
      rcases List.mem_cons.mp hq with hq2 | hq2
      · subst hq2
        exact lt_of_lt_of_le lt1 e4.length_le
      · exact e2 q hq2
    · rw [List.map_cons, List.map_cons, e5]
      have hstab2 := readShape_stable hwf1 e4 f (cloneNode f t acc.2).1 lt1
      rw [hstab2, hshape1, hstab1]

/-- The deep clone reproduces the materialized tree of the source exactly
(Immutable Snapshot Boundary, §4.2): reading the clone's root with the same
fuel yields the same shape as reading the original. -/
theorem clone_shape : ∀ (f : Nat) (r : Ref) (h : Heap), WfHeapP h →
    readShape f (cloneNode f r h).2 (cloneNode f r h).1 = readShape f h r := by
  intro f
  induction f with
  | zero => intro r h _; rfl
  | succ f ih =>
    intro r h hwf
    have hchild : ∀ q ∈ nodeRefs (stepNode h r), q < h.length := by
      intro q hq
      by_cases hrl : r < h.length
      · exact lt_trans (hwf r _ (stepNode_some hrl) q hq) hrl
      · rw [stepNode_dflt (Nat.le_of_not_lt hrl)] at hq
        simp [nodeRefs, dfltNode] at hq
    obtain ⟨cRefs, c1, c2, c3, c4, c5⟩ :=
      cloneFold_shape hwf f ih (stepNode h r).comments.items ([], h)
        (fun q hq => hchild q (List.mem_append.mpr (Or.inl hq))) List.prefix_rfl hwf
    obtain ⟨rRefs, r1, r2, r3, r4, r5⟩ :=
      cloneFold_shape hwf f ih (stepNode h r).replies.items
        ([], (cloneFold (fun q hh => cloneNode f q hh) (stepNode h r).comments.items ([], h)).2)
        (fun q hq => hchild q (List.mem_append.mpr (Or.inr hq))) c4 c3
    rw [List.nil_append] at c1 r1
    rw [cloneNode_succ]
    dsimp only
    rw [readShape_succ, readShape_succ, stepNode_concat]
    dsimp only
    rw [c1, r1]
    have hcm : List.map (fun q => readShape f
          ((cloneFold (fun q hh => cloneNode f q hh) (stepNode h r).replies.items
            ([], (cloneFold (fun q hh => cloneNode f q hh) (stepNode h r).comments.items
              ([], h)).2)).2 ++
            [⟨(stepNode h r).kindName, (stepNode h r).name,
              ⟨cRefs, (stepNode h r).comments.more⟩,
              ⟨rRefs, (stepNode h r).replies.more⟩⟩]) q) cRefs =
        List.map (fun q => readShape f h q) (stepNode h r).comments.items := by
      have hstab : ∀ q ∈ cRefs, readShape f
          ((cloneFold (fun q hh => cloneNode f q hh) (stepNode h r).replies.items
            ([], (cloneFold (fun q hh => cloneNode f q hh) (stepNode h r).comments.items
              ([], h)).2)).2 ++
            [⟨(stepNode h r).kindName, (stepNode h r).name,
              ⟨cRefs, (stepNode h r).comments.more⟩,
              ⟨rRefs, (stepNode h r).replies.more⟩⟩]) q =
          readShape f (cloneFold (fun q hh => cloneNode f q hh)
            (stepNode h r).comments.items ([], h)).2 q := by
        intro q hq
        exact readShape_stable c3 (r4.trans (List.prefix_append _ _)) f q (c2 q hq)
      rw [List.map_congr_left hstab, c5]
    have hrm : List.map (fun q => readShape f
          ((cloneFold (fun q hh => cloneNode f q hh) (stepNode h r).replies.items
            ([], (cloneFold (fun q hh => cloneNode f q hh) (stepNode h r).comments.items
              ([], h)).2)).2 ++
            [⟨(stepNode h r).kindName, (stepNode h r).name,
              ⟨cRefs, (stepNode h r).comments.more⟩,
              ⟨rRefs, (stepNode h r).replies.more⟩⟩]) q) rRefs =
        List.map (fun q => readShape f h q) (stepNode h r).replies.items := by
      have hstab : ∀ q ∈ rRefs, readShape f
          ((cloneFold (fun q hh => cloneNode f q hh) (stepNode h r).replies.items
            ([], (cloneFold (fun q hh => cloneNode f q hh) (stepNode h r).comments.items
              ([], h)).2)).2 ++
            [⟨(stepNode h r).kindName, (stepNode h r).name,
              ⟨cRefs, (stepNode h r).comments.more⟩,
              ⟨rRefs, (stepNode h r).replies.more⟩⟩]) q =
          readShape f (cloneFold (fun q hh => cloneNode f q hh)
            (stepNode h r).replies.items
            ([], (cloneFold (fun q hh => cloneNode f q hh) (stepNode h r).comments.items
              ([], h)).2)).2 q := by
        intro q hq
        exact readShape_stable r3 (List.prefix_append _ _) f q (r2 q hq)
      rw [List.map_congr_left hstab, r5]
    rw [hcm, hrm]

/-! ### Projection equations for the two top-level observation points -/

theorem expandRepliesAll_heap (env : Env) (limit depth : Int) (r : Ref) (h : Heap) :
    (expandRepliesAll env limit depth r h).heap =
      (expandNode env limit depth.toNat (cloneNode (r + 1) r h).1 (cloneNode (r + 1) r h).2).1 :=
  rfl

theorem expandRepliesAll_root (env : Env) (limit depth : Int) (r : Ref) (h : Heap) :
    (expandRepliesAll env limit depth r h).root = (cloneNode (r + 1) r h).1 := rfl

theorem expandRepliesAll_errs (env : Env) (limit depth : Int) (r : Ref) (h : Heap) :
    (expandRepliesAll env limit depth r h).errs =
      (expandNode env limit depth.toNat (cloneNode (r + 1) r h).1
        (cloneNode (r + 1) r h).2).2.1 := rfl

theorem expandRepliesAll_fetches (env : Env) (limit depth : Int) (r : Ref) (h : Heap) :
    (expandRepliesAll env limit depth r h).fetches =
      (expandNode env limit depth.toNat (cloneNode (r + 1) r h).1
        (cloneNode (r + 1) r h).2).2.2 := rfl

theorem expandRepliesResolved_def (env : Env) (limit depth : Int) (r : Ref) (h : Heap) :
    expandRepliesResolved env limit depth r h =
      mutateResolved env limit depth (cloneNode (r + 1) r h).1 (cloneNode (r + 1) r h).2 := rfl

theorem mutateResolved_nonpos {env : Env} {limit depth : Int} {r : Ref} {h : Heap}
    (hd : depth ≤ 0) : mutateResolved env limit depth r h = (.ok (r, []), h) := by
  unfold mutateResolved
  rw [if_pos hd]

theorem mutateResolved_pos {env : Env} {limit depth : Int} {r : Ref} {h : Heap}
    (hd : ¬ depth ≤ 0) :
    mutateResolved env limit depth r h =
      match expandStep env limit r h with
      | .error n => (.error n, h)
      | .ok (h2, ts, _) => (.ok (r, ts), h2) := by
  unfold mutateResolved
  rw [if_neg hd]

/-- The heap at the moment the `_mutateAndExpandReplies` promise settles also
leaves the region below `n` untouched. -/
theorem mutateResolved_frame {env : Env} {limit depth : Int} {n : Nat} {r : Ref} {h : Heap}
    (hinv : Inv n h) (hr : n ≤ r) :
    Frame n h (mutateResolved env limit depth r h).2 := by
  by_cases hd : depth ≤ 0
  · rw [mutateResolved_nonpos hd]
    exact fun i _ => rfl
  · rw [mutateResolved_pos hd]
    cases hstep : expandStep env limit r h with
    | error s => exact fun i _ => rfl
    | ok out =>
      obtain ⟨h2, ts, ev⟩ := out
      exact (expandStep_pres hstep hinv hr).1

/-- The invariant holds for the heap right after the deep clone, with `n` the
length of the original heap. -/
theorem clone_inv (r : Ref) (h : Heap) :
    Inv h.length (cloneNode (r + 1) r h).2 ∧ h.length ≤ (cloneNode (r + 1) r h).1 := by
  obtain ⟨cp, cge, _, crc⟩ := cloneNode_spec (r + 1) r h
  refine ⟨⟨cp.length_le, ?_⟩, cge⟩
  intro i nd hi hni q hq
  exact (crc h.length (le_refl _) (regionClosed_length h) i nd hi hni q hq).1

/-! ### Fetch-count bound -/

theorem stepFold_fetch_bound (g : Ref → Heap → Heap × List String × List (String × Int))
    (B : Nat) (hg : ∀ q h, (g q h).2.2.length ≤ B) :
    ∀ (l : List Ref) (acc : Heap × List String × List (String × Int)),
      (stepFold g l acc).2.2.length ≤ acc.2.2.length + l.length * B := by
  intro l
  induction l with
  | nil =>
    intro acc
    rw [stepFold_nil]
    simp
  | cons t ts ih =>
    intro acc
    rw [stepFold_cons]
    have h1 := ih ((g t acc.1).1, acc.2.1 ++ (g t acc.1).2.1, acc.2.2 ++ (g t acc.1).2.2)
    have h2 := hg t acc.1
    have h3 : (acc.2.2 ++ (g t acc.1).2.2).length = acc.2.2.length + (g t acc.1).2.2.length :=
      List.length_append _ _
    have h4 : (ts.length + 1) * B = ts.length * B + B := Nat.succ_mul ts.length B
    dsimp only at h1 ⊢
    simp only [List.length_cons]
    omega

theorem expandNode_fetch_bound {env : Env} {limit : Int} (hl : 0 ≤ limit) :
    ∀ (d : Nat) (r : Ref) (h : Heap),
      (expandNode env limit d r h).2.2.length ≤ fetchCount limit.toNat d := by
  intro d
  induction d with
  | zero =>
    intro r h
    rw [expandNode_zero]
    exact le_refl _
  | succ d ih =>
    intro r h
    rw [expandNode_succ]
    cases hstep : expandStep env limit r h with
    | error s => simp [fetchCount]
    | ok out =>
      obtain ⟨h2, ts, ev⟩ := out
      have hb := stepFold_fetch_bound (fun q hh => expandNode env limit d q hh)
        (fetchCount limit.toNat d) (fun q hh => ih q hh) ts (h2, [], [ev])
      have hts : ts.length ≤ limit.toNat := by
        rw [(expandStep_ok hstep).2.1]
        exact sliceTo_length_le hl _
      have hmul : ts.length * fetchCount limit.toNat d ≤
          limit.toNat * fetchCount limit.toNat d :=
        Nat.mul_le_mul_right _ hts
      show (stepFold (fun q hh => expandNode env limit d q hh) ts (h2, [], [ev])).2.2.length ≤
        fetchCount limit.toNat (d + 1)
      have hfc : fetchCount limit.toNat (d + 1) = 1 + limit.toNat * fetchCount limit.toNat d :=
        rfl
      dsimp only at hb
      simp only [List.length_cons, List.length_nil] at hb
      omega

/-! ### Helper lemmas used by the claim theorems -/

theorem getField_setField_same (n : Node) {key : String}
    (hk : key = "comments" ∨ key = "replies") (l : Listing) :
    getFieldByKey (setFieldByKey n key l) key = l := by
  rcases hk with hk | hk <;> subst hk
  · rw [setFieldByKey_comments, getFieldByKey_comments]
  · rw [setFieldByKey_replies, getFieldByKey_replies]

theorem stepNode_after_step {env : Env} {limit : Int} {r : Ref} {h h2 : Heap}
    {ts : List Ref} {ev : String × Int}
    (hok : expandStep env limit r h = .ok (h2, ts, ev)) (hrl : r < h.length) :
    stepNode h2 r = setFieldByKey (stepNode h r) (stepKey h r) (stepFetch limit h r).1 := by
  obtain ⟨hh2, _, _, _⟩ := expandStep_ok hok
  rw [hh2]
  unfold stepNode
  rw [List.getD_eq_getElem?_getD,
    List.getElem?_set_self (lt_of_lt_of_le hrl (stepFetch_heapExt limit h r).length_le)]
  rfl

/-! ### Claim theorems -/

/-- C1: counterevidence from the code — with root `r` (a Submission with one
loaded comment `a`) and a 3-level expansion `{limit := 5, depth := 3}` in
which the child fetch performed at depth 2 (on `a`'s reply listing) fails,
the promise returned by `expandReplies` nevertheless settles successfully
with the expanded clone (reference 3, detached pending task on reference 2)
as its result value, because line 157 discards the array of recursive child
promises instead of awaiting it; the failure is seen only by the detached
task, as the eventual semantics records (`errs = ["a"]`).  The claim that
such a failure makes the overall `expandReplies` promise fail, with no result
value produced, is false on this code. -/
theorem C1_expandReplies_resolves_despite_descendant_failure :
    (expandRepliesResolved envFailA 5 3 1 heapRA).1 = .ok (3, [2]) ∧
    (expandRepliesAll envFailA 5 3 1 heapRA).errs = ["a"] :=
  ⟨rfl, rfl⟩

/-- C2: counterevidence from the code — with root `r` and `{limit := 5,
depth := 2}` and every fetch succeeding, the `expandReplies` promise settles
(with the clone, reference 3, and the detached pending task on the child
clone, reference 2) while the recursive expansion of that child has not run:
at settlement the child's reply listing is still empty, and only the eventual
state (after the detached task completes) contains the fetched reply
(reference 4).  The promise therefore resolves before the recursive calls it
issued have resolved, contradicting the await-all-barrier claim. -/
theorem C2_expandReplies_resolves_before_children_complete :
    (expandRepliesResolved envOk 5 2 1 heapRA).1 = .ok (3, [2]) ∧
    ((expandRepliesResolved envOk 5 2 1 heapRA).2.getD 2 dfltNode).replies.items = [] ∧
    ((expandRepliesAll envOk 5 2 1 heapRA).heap.getD 2 dfltNode).replies.items = [4] :=
  ⟨rfl, rfl, rfl⟩

/-- C3: `expandReplies` never mutates the original entity: every heap cell of
the original region — in particular the root entity, each of its attributes,
and every node of its already-loaded child tree, hence its children field
both by reference and by value — is unchanged both at the moment the promise
settles and after every detached recursive task has completed.  All mutation
is performed on the freshly allocated deep clone. -/
theorem C3_expandReplies_preserves_original (env : Env) (limit depth : Int) (r : Ref)
    (h : Heap) (i : Nat) (hi : i < h.length) :
    (expandRepliesAll env limit depth r h).heap[i]? = h[i]? ∧
    (expandRepliesResolved env limit depth r h).2[i]? = h[i]? := by
  obtain ⟨hinv, hge⟩ := clone_inv r h
  have hp := (cloneNode_spec (r + 1) r h).1
  constructor
  · rw [expandRepliesAll_heap]
    have hf : Frame h.length (cloneNode (r + 1) r h).2
        (expandNode env limit depth.toNat (cloneNode (r + 1) r h).1
          (cloneNode (r + 1) r h).2).1 :=
      (expandNode_pres depth.toNat (cloneNode (r + 1) r h).1
        (cloneNode (r + 1) r h).2 hinv hge).1
    rw [hf i hi]
    exact prefix_getElem? hp hi
  · rw [expandRepliesResolved_def]
    have hf : Frame h.length (cloneNode (r + 1) r h).2
        (mutateResolved env limit depth (cloneNode (r + 1) r h).1
          (cloneNode (r + 1) r h).2).2 :=
      mutateResolved_frame hinv hge
    rw [hf i hi]
    exact prefix_getElem? hp hi

/-- Witness for C3 at a concrete input. -/
theorem C3_expandReplies_preserves_original_witness :
    (expandRepliesAll envOk 5 2 1 heapRA).heap[0]? = heapRA[0]? ∧
    (expandRepliesResolved envOk 5 2 1 heapRA).2[0]? = heapRA[0]? :=
  C3_expandReplies_preserves_original envOk 5 2 1 heapRA 0 (by decide)

/-- C4: depth-0 identity — `expandReplies(E, {depth: 0})` performs no
`fetchMore` call at all, reports no failure, and returns a tree whose shape
(node count, children per node, plus kinds and names) is identical to the
original's already-loaded shape; moreover the recursive step resolves with
its node unchanged whenever `depth ≤ 0`. -/
theorem C4_expandReplies_depth_zero_identity (env : Env) (limit : Int) (r : Ref) (h : Heap)
    (hw : wfHeap h = true) :
    (expandRepliesAll env limit 0 r h).fetches = [] ∧
    (expandRepliesAll env limit 0 r h).errs = [] ∧
    readShape (r + 1) (expandRepliesAll env limit 0 r h).heap
        (expandRepliesAll env limit 0 r h).root = readShape (r + 1) h r ∧
    (∀ (depth : Int) (q : Ref) (hh : Heap), depth ≤ 0 →
      mutateResolved env limit depth q hh = (.ok (q, []), hh)) := by
  refine ⟨rfl, rfl, ?_, fun depth q hh hd => mutateResolved_nonpos hd⟩
  have hh : (expandRepliesAll env limit 0 r h).heap = (cloneNode (r + 1) r h).2 := rfl
  rw [hh, expandRepliesAll_root]
  exact clone_shape (r + 1) r h (wfHeap_spec hw)

/-- Witness for C4 at a concrete input. -/
theorem C4_expandReplies_depth_zero_identity_witness :
    (expandRepliesAll envOk 5 0 1 heapRA).fetches = [] ∧
    (expandRepliesAll envOk 5 0 1 heapRA).errs = [] ∧
    readShape 2 (expandRepliesAll envOk 5 0 1 heapRA).heap
        (expandRepliesAll envOk 5 0 1 heapRA).root = readShape 2 heapRA 1 ∧
    (∀ (depth : Int) (q : Ref) (hh : Heap), depth ≤ 0 →
      mutateResolved envOk 5 depth q hh = (.ok (q, []), hh)) :=
  C4_expandReplies_depth_zero_identity envOk 5 1 heapRA (by decide)

/-- C5: preservation — the deep clone handed back to the caller reproduces
the original tree exactly, and the expansion (run to completion, with the
modelled Fetch-more returning all previously-held items in order) only
extends each node's materialized listings by appending: same constructor
name, same entity name, and the pre-expansion children list is a prefix of
the post-expansion one.  Hence every child of the original tree, at any
depth, appears in the returned tree in the same relative sibling order, for
every `limit` and `depth`. -/
theorem C5_expandReplies_preserves_existing_children (env : Env) (limit depth : Int)
    (r : Ref) (h : Heap) (hw : wfHeap h = true) :
    readShape (r + 1) (cloneNode (r + 1) r h).2 (expandRepliesAll env limit depth r h).root =
      readShape (r + 1) h r ∧
    ∀ (q : Ref) (n1 : Node), (cloneNode (r + 1) r h).2[q]? = some n1 →
      ∃ n2 : Node, (expandRepliesAll env limit depth r h).heap[q]? = some n2 ∧
        n2.kindName = n1.kindName ∧ n2.name = n1.name ∧
        n1.comments.items <+: n2.comments.items ∧
        n1.replies.items <+: n2.replies.items := by
  obtain ⟨hinv, hge⟩ := clone_inv r h
  constructor
  · rw [expandRepliesAll_root]
    exact clone_shape (r + 1) r h (wfHeap_spec hw)
  · intro q n1 hq
    rw [expandRepliesAll_heap]
    exact (expandNode_pres depth.toNat (cloneNode (r + 1) r h).1
      (cloneNode (r + 1) r h).2 hinv hge).2.1 q n1 hq

/-- Witness for C5 at a concrete input. -/
theorem C5_expandReplies_preserves_existing_children_witness :
    readShape 2 (cloneNode 2 1 heapRA).2 (expandRepliesAll envOk 5 2 1 heapRA).root =
      readShape 2 heapRA 1 ∧
    ∀ (q : Ref) (n1 : Node), (cloneNode 2 1 heapRA).2[q]? = some n1 →
      ∃ n2 : Node, (expandRepliesAll envOk 5 2 1 heapRA).heap[q]? = some n2 ∧
        n2.kindName = n1.kindName ∧ n2.name = n1.name ∧
        n1.comments.items <+: n2.comments.items ∧
        n1.replies.items <+: n2.replies.items :=
  C5_expandReplies_preserves_existing_children envOk 5 2 1 heapRA (by decide)

/-- C6: the branching cap bounds recursion, not result size — expanding the
two-child comment `p` with `{limit := 1, depth := 2}` leaves the expanded
clone (reference 5) with both children `[3, 4]` in order; the second child
(reference 4) is wholly untouched, still at its pre-expansion depth with its
backing supply unfetched, while only the first child (reference 3) was
recursively expanded and gained its fetched reply (reference 6).  In general,
the recursion target set of a successful step is exactly
`replies.slice(0, limit)` of the updated listing (the step's targets, which
`expandNode` then recurses into with the same `limit` and one fuel less). -/
theorem C6_limit_caps_recursion_not_result_size :
    ((expandRepliesAll envOk 1 2 2 heapC6).heap.getD 5 dfltNode).replies.items = [3, 4] ∧
    (expandRepliesAll envOk 1 2 2 heapC6).heap.getD 4 dfltNode =
      ⟨"Comment", "b", ⟨[], []⟩, ⟨[], [tmplB1]⟩⟩ ∧
    ((expandRepliesAll envOk 1 2 2 heapC6).heap.getD 3 dfltNode).replies.items = [6] ∧
    ∀ (env : Env) (limit : Int) (r : Ref) (h h2 : Heap) (ts : List Ref) (ev : String × Int),
      expandStep env limit r h = .ok (h2, ts, ev) →
      ts = sliceTo limit (stepFetch limit h r).1.items := by
  refine ⟨rfl, rfl, rfl, ?_⟩
  intro env limit r h h2 ts ev hok
  exact (expandStep_ok hok).2.1

/-- Witness for the universally quantified part of C6 at a concrete step. -/
theorem C6_limit_caps_recursion_not_result_size_witness :
    [0] = sliceTo 5 (stepFetch 5 heapRA 1).1.items :=
  C6_limit_caps_recursion_not_result_size.2.2.2 envOk 5 1 heapRA
    ((stepFetch 5 heapRA 1).2.set 1
      (setFieldByKey (stepNode heapRA 1) (stepKey heapRA 1) (stepFetch 5 heapRA 1).1))
    [0] ("r", 4) rfl

/-- C7: termination and bounded work — the recursive expansion is a total
function driven by the strictly decreasing fuel `depth.toNat` (base case
`depth ≤ 0`), and for every heap — however much further backing supply its
listings could deliver — and every `limit ≥ 0`, the number of `fetchMore`
calls performed in the whole fan-out is at most
`fetchCount limit.toNat depth.toNat`, a bound independent of the heap;
`depth ≤ 0` performs no fetch at all. -/
theorem C7_expansion_terminates_with_bounded_fetches (env : Env) (limit depth : Int)
    (r : Ref) (h : Heap) (hl : 0 ≤ limit) :
    (expandRepliesAll env limit depth r h).fetches.length ≤
      fetchCount limit.toNat depth.toNat ∧
    (depth ≤ 0 → (expandRepliesAll env limit depth r h).fetches = []) := by
  constructor
  · rw [expandRepliesAll_fetches]
    exact expandNode_fetch_bound hl depth.toNat _ _
  · intro hd
    rw [expandRepliesAll_fetches]
    have h0 : depth.toNat = 0 := Int.toNat_eq_zero.mpr hd
    rw [h0, expandNode_zero]

/-- Witness for C7 at a concrete input. -/
theorem C7_expansion_terminates_with_bounded_fetches_witness :
    (expandRepliesAll envOk 5 2 1 heapRA).fetches.length ≤
      fetchCount (5 : Int).toNat (2 : Int).toNat ∧
    ((2 : Int) ≤ 0 → (expandRepliesAll envOk 5 2 1 heapRA).fetches = []) :=
  C7_expansion_terminates_with_bounded_fetches envOk 5 2 1 heapRA (by decide)

/-- C8: the fetch shortfall handed to the listing collaborator is exactly
`limit - currentChildCount`, with no clamping of negative values; the
spec-modelled collaborator treats a non-positive request as a no-op returning
an equivalent listing, and the node's selected children field is replaced
wholesale by the returned listing — which, whenever the current child count
is at least `limit`, equals the existing listing. -/
theorem C8_shortfall_unclamped :
    (∀ (l : Listing) (a : Int) (h : Heap), a ≤ 0 → fetchMore l a h = (l, h)) ∧
    (∀ (env : Env) (limit : Int) (r : Ref) (h h2 : Heap) (ts : List Ref) (ev : String × Int),
      expandStep env limit r h = .ok (h2, ts, ev) →
      ev.2 = limit - ((stepListing h r).items.length : Int) ∧
      (r < h.length → limit ≤ ((stepListing h r).items.length : Int) →
        getFieldByKey (stepNode h2 r) (stepKey h r) = stepListing h r)) := by
  constructor
  · exact fun l a h ha => fetchMore_nonpos ha l h
  · intro env limit r h h2 ts ev hok
    obtain ⟨hh2, _, hev, _⟩ := expandStep_ok hok
    constructor
    · rw [hev]
      exact rfl
    · intro hrl hlim
      have hneg : stepAmount limit h r ≤ 0 := by
        unfold stepAmount
        omega
      have hfetch : stepFetch limit h r = (stepListing h r, h) := by
        rw [stepFetch_def]
        exact fetchMore_nonpos hneg _ _
      have hget : stepNode h2 r =
          setFieldByKey (stepNode h r) (stepKey h r) (stepListing h r) := by
        rw [stepNode_after_step hok hrl, hfetch]
      rw [hget]
      exact getField_setField_same _ (stepKey_cases h r) _

/-- Witness for C8 at concrete inputs: a negative-amount no-op fetch, and a
step on the two-child node `p` with `limit = 1`, whose shortfall is `-1` and
whose children field is left equal to the existing listing. -/
theorem C8_shortfall_unclamped_witness :
    fetchMore ⟨[], []⟩ (-1) [] = (⟨[], []⟩, []) ∧
    ("p", (-1 : Int)).2 = 1 - ((stepListing heapC6 2).items.length : Int) ∧
    getFieldByKey
      (stepNode ((stepFetch 1 heapC6 2).2.set 2
        (setFieldByKey (stepNode heapC6 2) (stepKey heapC6 2) (stepFetch 1 heapC6 2).1)) 2)
      (stepKey heapC6 2) = stepListing heapC6 2 :=
  ⟨C8_shortfall_unclamped.1 ⟨[], []⟩ (-1) [] (by decide),
   (C8_shortfall_unclamped.2 envOk 1 2 heapC6
      ((stepFetch 1 heapC6 2).2.set 2
        (setFieldByKey (stepNode heapC6 2) (stepKey heapC6 2) (stepFetch 1 heapC6 2).1))
      [0] ("p", -1) (by exact rfl)).1,
   (C8_shortfall_unclamped.2 envOk 1 2 heapC6
      ((stepFetch 1 heapC6 2).2.set 2
        (setFieldByKey (stepNode heapC6 2) (stepKey heapC6 2) (stepFetch 1 heapC6 2).1))
      [0] ("p", -1) (by exact rfl)).2 (by decide) (by decide)⟩

/-- C9: children-field selection by entity kind — `repliesKey` maps the
`Submission` constructor name to `comments` and every other constructor name
to `replies`; accordingly, a successful expansion step touches only the
selected field: a Submission node keeps its `replies` field unchanged, and
any non-Submission node keeps its `comments` field unchanged. -/
theorem C9_repliesKey_selects_children_field :
    repliesKey "Submission" = "comments" ∧
    (∀ s : String, s ≠ "Submission" → repliesKey s = "replies") ∧
    (∀ (env : Env) (limit : Int) (r : Ref) (h h2 : Heap) (ts : List Ref) (ev : String × Int),
      expandStep env limit r h = .ok (h2, ts, ev) → r < h.length →
      ((stepNode h r).kindName = "Submission" →
        stepKey h r = "comments" ∧ (stepNode h2 r).replies = (stepNode h r).replies) ∧
      ((stepNode h r).kindName ≠ "Submission" →
        stepKey h r = "replies" ∧ (stepNode h2 r).comments = (stepNode h r).comments)) := by
  refine ⟨rfl, ?_, ?_⟩
  · intro s hs
    simp [repliesKey, hs]
  · intro env limit r h h2 ts ev hok hrl
    constructor
    · intro hkind
      have hkey : stepKey h r = "comments" := by
        unfold stepKey
        rw [hkind]
        exact rfl
      refine ⟨hkey, ?_⟩
      rw [stepNode_after_step hok hrl, hkey, setFieldByKey_comments]
    · intro hkind
      have hkey : stepKey h r = "replies" := by
        unfold stepKey
        simp [repliesKey, hkind]
      refine ⟨hkey, ?_⟩
      rw [stepNode_after_step hok hrl, hkey, setFieldByKey_replies]

/-- Witness for C9 at concrete inputs: a non-Submission constructor name maps
to `replies`, and the step on the Submission root of `heapRA` selects
`comments` and leaves `replies` unchanged. -/
theorem C9_repliesKey_selects_children_field_witness :
    repliesKey "Comment" = "replies" ∧
    stepKey heapRA 1 = "comments" ∧
    (stepNode ((stepFetch 5 heapRA 1).2.set 1
      (setFieldByKey (stepNode heapRA 1) (stepKey heapRA 1) (stepFetch 5 heapRA 1).1)) 1).replies =
      (stepNode heapRA 1).replies :=
  ⟨C9_repliesKey_selects_children_field.2.1 "Comment" (by decide),
   ((C9_repliesKey_selects_children_field.2.2 envOk 5 1 heapRA
      ((stepFetch 5 heapRA 1).2.set 1
        (setFieldByKey (stepNode heapRA 1) (stepKey heapRA 1) (stepFetch 5 heapRA 1).1))
      [0] ("r", 4) rfl (by decide)).1 rfl).1,
   ((C9_repliesKey_selects_children_field.2.2 envOk 5 1 heapRA
      ((stepFetch 5 heapRA 1).2.set 1
        (setFieldByKey (stepNode heapRA 1) (stepKey heapRA 1) (stepFetch 5 heapRA 1).1))
      [0] ("r", 4) rfl (by decide)).1 rfl).2⟩

/-- C10: `undistinguish()` is behaviorally identical to
`distinguish({status: false, sticky: false})`: it issues the same single POST
to `api/distinguish` with `how = "no"`, `sticky = false` and this entity's
name, and resolves with the entity itself; in general `distinguish` maps a
`true` status to `"yes"`, `false` to `"no"`, and passes a string status
through unchanged. -/
theorem C10_undistinguish_is_distinguish_false :
    (∀ self : Node, undistinguish self = distinguish self (DStatus.bool false) false) ∧
    (∀ self : Node,
      (undistinguish self).1 = [⟨"api/distinguish", ⟨"json", "no", false, self.name⟩⟩] ∧
      (undistinguish self).2 = self) ∧
    (∀ (self : Node) (st : DStatus) (sk : Bool),
      (distinguish self st sk).2 = self ∧ (distinguish self st sk).1.length = 1) ∧
    distinguishHow (DStatus.bool true) = "yes" ∧
    distinguishHow (DStatus.bool false) = "no" ∧
    (∀ s : String, distinguishHow (DStatus.str s) = s) :=
  ⟨fun _ => rfl, fun _ => ⟨rfl, rfl⟩, fun _ _ _ => ⟨rfl, rfl⟩, rfl, rfl, fun _ => rfl⟩

end Snoowrap
